import Mathlib

/-!
Verification of the post-quantum SIS proof-of-work core of quantumbtc/bitcoin.

Shallow embedding of the C++ sources:
  * src/crypto/lattice_sis.cpp  (DecodeTernary, VerifySIS)
  * src/pow.cpp                 (UnpackTernary2b, DeriveMatrixA, MatVecMod,
                                 LinfCentered, L0, MapNBitsToR, CheckProofOfWorkSIS,
                                 CheckProofOfWork, DeriveTarget, CheckProofOfWorkImpl)
  * src/pow_quantum.cpp         (GenerateSeed)
  * src/sis_pow_solver.cpp      (PackTernary, PRNG, SampleSparseTernary)

Bytes are modelled as natural numbers; machine casts are made explicit where
they matter.  Unsigned shifts and masks are translated with the corresponding
operations on Nat; `x >> k` on an unsigned value is `x >>> k` (= `x / 2 ^ k`)
and `x & m` is `x &&& m`.  SHA-256 is out of scope of the sources and is
treated as a black-box byte function, passed as an explicit parameter.
-/

/-- Number of bytes needed for `m` 2-bit codes: `(m*2 + 7) / 8`, as computed
by both `PackTernary` and `DecodeTernary`/`UnpackTernary2b`. -/
def needBytes (m : Nat) : Nat := (m * 2 + 7) / 8

/-- The 2-bit code of a ternary coefficient, `0 ↦ 00`, `+1 ↦ 01`, `-1 ↦ 11`;
anything else is invalid (`PackTernary` throws).  From src/sis_pow_solver.cpp,
`PackTernary`. -/
def ternCode (v : Int) : Option Nat :=
  if v = 0 then some 0
  else if v = 1 then some 1
  else if v = -1 then some 3
  else none

/-- Loop body of `PackTernary` (src/sis_pow_solver.cpp, lines 159-184):
writes each 2-bit code into the output byte vector at bit position `bitpos`,
spilling into the following byte when the code straddles a byte boundary. -/
def packGo : List Int → List Nat → Nat → Option (List Nat)
  | [], out, _ => some out
  | v :: rest, out, bitpos =>
    match ternCode v with
    | none => none
    | some code =>
      let byte_idx := bitpos / 8
      let shift := bitpos % 8
      let out1 := out.set byte_idx (out.getD byte_idx 0 ||| (code <<< shift))
      let out2 :=
        if 6 < shift then
          out1.set (byte_idx + 1) (out1.getD (byte_idx + 1) 0 ||| (code >>> (8 - shift)))
        else out1
      packGo rest out2 (bitpos + 2)

/-- `PackTernary` from src/sis_pow_solver.cpp: packs a ternary vector into
`⌈2m/8⌉` bytes, two bits per coefficient, little-endian within each byte. -/
def PackTernary (x : List Int) : Option (List Nat) :=
  packGo x (List.replicate ((x.length * 2 + 7) / 8) 0) 0

/-- Loop body of `DecodeTernary` (src/crypto/lattice_sis.cpp, lines 58-70):
reads `k` 2-bit groups starting at bit position `bitpos`; the group value `10`
is invalid. -/
def decodeGo (vch : List Nat) : Nat → Nat → Option (List Int)
  | _, 0 => some []
  | bitpos, k + 1 =>
    let byte_idx := bitpos / 8
    let shift := bitpos % 8
    let cur := vch.getD byte_idx 0
    let next := if byte_idx + 1 < vch.length then vch.getD (byte_idx + 1) 0 else 0
    let two := ((cur >>> shift) ||| (next <<< (8 - shift))) &&& 3
    if two = 0 then (decodeGo vch (bitpos + 2) k).map (fun xs => 0 :: xs)
    else if two = 1 then (decodeGo vch (bitpos + 2) k).map (fun xs => 1 :: xs)
    else if two = 3 then (decodeGo vch (bitpos + 2) k).map (fun xs => (-1) :: xs)
    else none

/-- `DecodeTernary` from src/crypto/lattice_sis.cpp (lines 52-72): decodes an
`m`-entry ternary vector from at least `⌈2m/8⌉` bytes; `none` models the
`false` return. -/
def DecodeTernary (vch : List Nat) (m : Nat) : Option (List Int) :=
  if vch.length < (m * 2 + 7) / 8 then none else decodeGo vch 0 m

/-- Loop body of `UnpackTernary2b` (src/pow.cpp, lines 286-303); identical
bit layout to `decodeGo`. -/
def unpackGo (vch : List Nat) : Nat → Nat → Option (List Int)
  | _, 0 => some []
  | bitpos, k + 1 =>
    let byte_idx := bitpos / 8
    let shift := bitpos % 8
    let cur := vch.getD byte_idx 0
    let next := if byte_idx + 1 < vch.length then vch.getD (byte_idx + 1) 0 else 0
    let two := ((cur >>> shift) ||| (next <<< (8 - shift))) &&& 3
    if two = 0 then (unpackGo vch (bitpos + 2) k).map (fun xs => 0 :: xs)
    else if two = 1 then (unpackGo vch (bitpos + 2) k).map (fun xs => 1 :: xs)
    else if two = 3 then (unpackGo vch (bitpos + 2) k).map (fun xs => (-1) :: xs)
    else none

/-- `UnpackTernary2b` from src/pow.cpp (lines 279-305): the verifier-side
decoder of the 2-bit ternary encoding (`00=0, 01=+1, 11=-1, 10` invalid). -/
def UnpackTernary2b (vch : List Nat) (m : Nat) : Option (List Int) :=
  if vch.length < (m * 2 + 7) / 8 then none else unpackGo vch 0 m

/-- The `i`-th 2-bit group of a byte string (4 groups per byte, little-endian
within the byte).  Specification view of the layout read by the decoders. -/
def groupAt (vch : List Nat) (i : Nat) : Nat :=
  (vch.getD (i / 4) 0 >>> (2 * (i % 4))) &&& 3

/-- The ternary value denoted by a 2-bit group, `none` for the invalid `10`. -/
def valAt (t : Nat) : Option Int :=
  if t = 0 then some 0
  else if t = 1 then some 1
  else if t = 3 then some (-1)
  else none

/-- Group-indexed restatement of the decoding loop: entry `j` comes from
group `i + j`. -/
def decodeSpec (vch : List Nat) : Nat → Nat → Option (List Int)
  | _, 0 => some []
  | i, k + 1 =>
    match valAt (groupAt vch i) with
    | none => none
    | some v => (decodeSpec vch (i + 1) k).map (fun xs => v :: xs)

/-- High byte of an `nBits` compact value, `(nBits >> 24) & 0xff`
(src/pow.cpp, `MapNBitsToR`). -/
def exponentOf (nBits : Nat) : Nat := (nBits >>> 24) &&& 0xff

/-- `MapNBitsToR` from src/pow.cpp (lines 362-371): the dynamic residual
threshold `max(1, (q >> 3) - exponent)` as a signed integer computation. -/
def MapNBitsToR (nBits : Nat) (q : Nat) : Int :=
  max 1 (((q >>> 3 : Nat) : Int) - (exponentOf nBits : Int))

-- ## Block header, seed derivation and the approximate-SIS verifier

/-- The block-header fields consumed by the PoW core (src/primitives/block.h,
consumed throughout src/pow.cpp and src/pow_quantum.cpp).  Hash fields are
32-byte strings; integer fields are 32-bit unsigned values. -/
structure CBlockHeader where
  nVersion : Nat
  hashPrevBlock : List Nat
  hashMerkleRoot : List Nat
  nTime : Nat
  nBits : Nat
  nNonce : Nat
  vchPowSolution : List Nat

/-- `GenerateSeed` from src/pow_quantum.cpp (lines 117-148): the 80-byte
serialization `version(4) ∥ prev_hash(32) ∥ merkle_root(32) ∥ time(4) ∥
bits(4) ∥ nonce(4)`, little-endian, with `vchPowSolution` excluded. -/
def GenerateSeed (header : CBlockHeader) : List Nat :=
  ((List.range 4).map fun i => (header.nVersion >>> (i * 8)) &&& 0xff)
    ++ ((List.range 32).map fun i => header.hashPrevBlock.getD i 0)
    ++ ((List.range 32).map fun i => header.hashMerkleRoot.getD i 0)
    ++ ((List.range 4).map fun i => (header.nTime >>> (i * 8)) &&& 0xff)
    ++ ((List.range 4).map fun i => (header.nBits >>> (i * 8)) &&& 0xff)
    ++ ((List.range 4).map fun i => (header.nNonce >>> (i * 8)) &&& 0xff)

/-- `HeaderSeed` from src/pow.cpp (lines 233-239) takes the bytes of
`CBlockHeader::GetHash()`.  Modelled from the spec: `GetHash` itself
(src/primitives/block.cpp) is not part of the sources; per spec §4.7 the seed
is the SHA-256 of the exact 80-byte serialization with `pow_solution`
excluded, i.e. of `GenerateSeed header`; SHA-256 is the black-box `sha256`. -/
def HeaderSeed (sha256 : List Nat → List Nat) (header : CBlockHeader) : List Nat :=
  sha256 (GenerateSeed header)

/-- `AppendLE32` from src/pow.cpp (lines 221-227): a `u32` as 4 little-endian
bytes. -/
def AppendLE32 (v : Nat) : List Nat :=
  [v &&& 0xff, (v >>> 8) &&& 0xff, (v >>> 16) &&& 0xff, (v >>> 24) &&& 0xff]

/-- `DeriveMatrixA` from src/pow.cpp (lines 246-274): row-major `n × m` matrix
with `A[i*m + j] = le16(SHA256(seed ∥ le32(i) ∥ le32(j))[0..2]) mod q` (the
`mod q` only when `q < 65536`).  The `&&& 0xff` masks record that the
black-box hash output consists of bytes (`unsigned char out[32]`). -/
def DeriveMatrixA (sha256 : List Nat → List Nat) (seed32 : List Nat)
    (n m q : Nat) : List Nat :=
  (List.range n).flatMap fun i => (List.range m).map fun j =>
    let out := sha256 (seed32 ++ AppendLE32 i ++ AppendLE32 j)
    let v := (out.getD 0 0 &&& 0xff) ||| ((out.getD 1 0 &&& 0xff) <<< 8)
    if q < 65536 then v % q else v

/-- `MatVecMod` from src/pow.cpp (lines 310-328): `y[i] = (A·x)[i] mod q`
with the incremental reduction `if (acc >= q) acc -= q` of the source. -/
def MatVecMod (A : List Nat) (x : List Int) (n m q : Nat) : List Nat :=
  (List.range n).map fun i =>
    let acc := (List.range m).foldl (fun acc j =>
      let v := x.getD j 0
      if v = 0 then acc
      else
        let acc1 := acc + (if v = 1 then A.getD (i * m + j) 0 else q - A.getD (i * m + j) 0)
        if q ≤ acc1 then acc1 - q else acc1) 0
    acc % q

/-- `LinfCentered` from src/pow.cpp (lines 333-345): center each entry into
`[-q/2, q/2]` and return the maximal absolute value. -/
def LinfCentered (y : List Nat) (q : Nat) : Int :=
  y.foldl (fun mx v =>
    let c : Int := (v : Int)
    let c1 := if c > (q : Int) / 2 then c - (q : Int) else c
    let c2 := if c1 < -((q : Int) / 2) then c1 + (q : Int) else c1
    max mx |c2|) 0

/-- `L0` from src/pow.cpp (lines 350-356): the Hamming weight of a ternary
vector. -/
def L0 (x : List Int) : Nat :=
  x.foldl (fun s v => if v ≠ 0 then s + 1 else s) 0

/-- The PoW dispatch modes of `Consensus::Params::PowType`
(`SHA256D`, `LATTICE_SIS`, `QUANTUM_NTRU`). -/
inductive PowType where
  | SHA256D : PowType
  | LATTICE_SIS : PowType
  | QUANTUM_NTRU : PowType

/-- The consensus parameters consumed by the PoW core
(src/consensus/params.h fields read by src/pow.cpp). -/
structure ConsensusParams where
  powType : PowType
  powLimit : Nat
  sis_n : Nat
  sis_m : Nat
  sis_q : Nat
  sis_w : Nat
  sis_r_fixed : Int
  sis_dynamic_r : Bool

/-- `CheckProofOfWorkSIS` from src/pow.cpp (lines 380-422): the
approximate-SIS verifier.  An empty solution returns `true` (the source's
genesis/transition allowance); otherwise decode, check `L0(x) == w`, derive
`A`, and check `‖A·x mod q‖∞ ≤ r`. -/
def CheckProofOfWorkSIS (sha256 : List Nat → List Nat) (header : CBlockHeader)
    (params : ConsensusParams) : Bool :=
  let n := params.sis_n
  let m := params.sis_m
  let q := params.sis_q
  let w := params.sis_w
  if header.vchPowSolution = [] then true
  else
    match UnpackTernary2b header.vchPowSolution m with
    | none => false
    | some x =>
      if L0 x ≠ w then false
      else
        let seed32 := HeaderSeed sha256 header
        let A := DeriveMatrixA sha256 seed32 n m q
        let y := MatVecMod A x n m q
        let r := if params.sis_dynamic_r then MapNBitsToR header.nBits q
                 else params.sis_r_fixed
        let linf := LinfCentered y q
        decide (linf ≤ r)

-- ## PoW dispatcher (src/pow.cpp, CheckProofOfWork)

/-- Modelled from the spec: `arith_uint256::SetCompact`
(src/arith_uint256.cpp is not part of the sources; the spec treats compact
targets as standard Bitcoin mechanics).  Returns the 256-bit target value and
the `negative`/`overflow` flags of the compact encoding `nCompact`. -/
def SetCompact (nCompact : Nat) : Nat × Bool × Bool :=
  let nSize := nCompact >>> 24
  let nWord := nCompact &&& 0x007fffff
  let value :=
    if nSize ≤ 3 then nWord >>> (8 * (3 - nSize))
    else (nWord <<< (8 * (nSize - 3))) % 2 ^ 256
  let neg := decide (nWord ≠ 0) && decide (nCompact &&& 0x00800000 ≠ 0)
  let over := decide (nWord ≠ 0) &&
    (decide (34 < nSize) || (decide (0xff < nWord) && decide (33 < nSize)) ||
      (decide (0xffff < nWord) && decide (32 < nSize)))
  (value, neg, over)

/-- `DeriveTarget` from src/pow.cpp (lines 191-204): decode `nBits`, rejecting
negative, zero, overflowing, or above-`pow_limit` targets. -/
def DeriveTarget (nBits : Nat) (powLimit : Nat) : Option Nat :=
  let r := SetCompact nBits
  if r.2.1 || decide (r.1 = 0) || r.2.2 || decide (powLimit < r.1) then none
  else some r.1

/-- `CheckProofOfWorkImpl` from src/pow.cpp (lines 206-215): the classical
hash-below-target check. -/
def CheckProofOfWorkImpl (hash : Nat) (nBits : Nat) (params : ConsensusParams) : Bool :=
  match DeriveTarget nBits params.powLimit with
  | none => false
  | some bnTarget => decide (hash ≤ bnTarget)

/-- `CheckProofOfWork` from src/pow.cpp (lines 165-189): dispatch on the PoW
type.  `fuzz` models `EnableFuzzDeterminism()` (external; `false` outside
fuzz builds), `hashFn` models `CBlockHeader::GetHash()` as a 256-bit value
(src/primitives/block.cpp is not part of the sources), and `checkQuantum`
models `CheckQuantumProofOfWork` (pure but floating-point based, see
src/pow_quantum.cpp). -/
def CheckProofOfWork (fuzz : Bool) (hashFn : CBlockHeader → Nat)
    (sha256 : List Nat → List Nat)
    (checkQuantum : CBlockHeader → ConsensusParams → Bool)
    (block : CBlockHeader) (params : ConsensusParams) : Bool :=
  if fuzz then decide ((hashFn block >>> 248) &&& 0x80 = 0)
  else
    match params.powType with
    | PowType.SHA256D =>
      match DeriveTarget block.nBits params.powLimit with
      | none => false
      | some _ => CheckProofOfWorkImpl (hashFn block) block.nBits params
    | PowType.LATTICE_SIS =>
      match DeriveTarget block.nBits params.powLimit with
      | none => false
      | some _ =>
        if ! CheckProofOfWorkSIS sha256 block params then false
        else CheckProofOfWorkImpl (hashFn block) block.nBits params
    | PowType.QUANTUM_NTRU =>
      if ! checkQuantum block params then false else true

-- ## Concrete fixtures used by witnesses and counterexamples

/-- A concrete stand-in for the black-box SHA-256: constant 32 zero bytes. -/
def shaZero : List Nat → List Nat := fun _ => List.replicate 32 0

/-- A header whose `vchPowSolution` is empty. -/
def hdrEmptySol : CBlockHeader :=
  ⟨0, List.replicate 32 0, List.replicate 32 0, 0, 0, 0, []⟩

/-- A header whose `vchPowSolution` is a single byte (too short for `m = 8`). -/
def hdrShortSol : CBlockHeader :=
  ⟨0, List.replicate 32 0, List.replicate 32 0, 0, 0, 0, [0]⟩

/-- A header whose `vchPowSolution` is two zero bytes (the all-zero vector
for `m = 8`). -/
def hdrZeroSol : CBlockHeader :=
  ⟨0, List.replicate 32 0, List.replicate 32 0, 0, 0, 0, [0, 0]⟩

/-- Small test parameters: `n = 1`, `m = 8`, `q = 17`, `w = 1`, fixed `r = 0`,
`LATTICE_SIS` mode. -/
def prmsTest : ConsensusParams :=
  ⟨PowType.LATTICE_SIS, 2 ^ 255, 1, 8, 17, 1, 0, false⟩

-- ## Strict-SIS verifier (src/crypto/lattice_sis.cpp)

/-- `lattice::SISParams` from src/crypto/lattice_sis.h: `n, m, q, w` as
unsigned 32-bit values. -/
structure SISParams where
  n : Nat
  m : Nat
  q : Nat
  w : Nat

/-- `lattice::SISInstance` from src/crypto/lattice_sis.h: `A` is `n × m`
row-major with values in `[0, q)`; `b` has `n` entries in `[0, q)`
(`uint16_t` entries). -/
structure SISInstance where
  A : List Nat
  b : List Nat

/-- `lattice::VerifySIS` from src/crypto/lattice_sis.cpp (lines 74-92):
checks `x.size() == m`, Hamming weight `≤ w`, and per row
`(Σ_j A[i][j]·x[j]) mod q == b[i]` with C truncated `%` followed by a
`+ q` adjustment and a `uint16_t` cast. -/
def VerifySIS (I : SISInstance) (sp : SISParams) (x : List Int) : Bool :=
  if x.length ≠ sp.m then false
  else if sp.w < L0 x then false
  else
    (List.range sp.n).all fun i =>
      let acc : Int := (List.range sp.m).foldl
        (fun acc j => acc + (I.A.getD (i * sp.m + j) 0 : Int) * x.getD j 0) 0
      let mod0 := acc.tmod (sp.q : Int)
      let m1 := if mod0 < 0 then mod0 + (sp.q : Int) else mod0
      decide (m1.toNat % 65536 = I.b.getD i 0)

-- ## Miner sampling (src/sis_pow_solver.cpp)

/-- 64-bit rotate-left of the xoshiro-style PRNG
(src/sis_pow_solver.cpp, line 44). -/
def rotl64 (x k : Nat) : Nat := ((x <<< k) % 2 ^ 64) ||| (x >>> (64 - k))

/-- The state of the miner PRNG (src/sis_pow_solver.cpp, `struct PRNG`):
four 64-bit words. -/
structure PRNG where
  s0 : Nat
  s1 : Nat
  s2 : Nat
  s3 : Nat

/-- `PRNG::next` from src/sis_pow_solver.cpp (lines 67-78): one xoshiro-style
step, all arithmetic modulo `2^64`. -/
def PRNG.next (g : PRNG) : Nat × PRNG :=
  let result := (g.s0 + g.s3) % 2 ^ 64
  let t := (g.s1 <<< 17) % 2 ^ 64
  let s2a := g.s2 ^^^ g.s0
  let s3a := g.s3 ^^^ g.s1
  let s1a := g.s1 ^^^ s2a
  let s0a := g.s0 ^^^ s3a
  let s2b := s2a ^^^ t
  let s3b := rotl64 s3a 45
  (result, ⟨s0a, s1a, s2b, s3b⟩)

/-- `PRNG::uniform_int` from src/sis_pow_solver.cpp (lines 80-84):
an integer in `[lo, hi]` (inclusive) from one PRNG draw. -/
def uniformInt (g : PRNG) (lo hi : Nat) : Nat × PRNG :=
  let r := g.next
  (lo + r.1 % (hi - lo + 1), r.2)

/-- The partial Fisher-Yates loop of `SampleSparseTernary`
(src/sis_pow_solver.cpp, lines 147-151): for `i` in `[i₀, i₀ + fuel)`,
swap `idx[i]` with `idx[j]` for a uniform `j ∈ [i, m-1]`. -/
def fisherSwapGo : List Nat → PRNG → Nat → Nat → Nat → List Nat × PRNG
  | idx, g, _, _, 0 => (idx, g)
  | idx, g, i, m, fuel + 1 =>
    let jg := uniformInt g i (m - 1)
    let a := idx.getD i 0
    let b := idx.getD jg.1 0
    fisherSwapGo ((idx.set i b).set jg.1 a) jg.2 (i + 1) m fuel

/-- The sign-assignment loop of `SampleSparseTernary`
(src/sis_pow_solver.cpp, lines 152-155): for `k` in `[k₀, k₀ + fuel)`,
set `x[idx[k]]` to `±1` by a fresh PRNG bit. -/
def assignSignsGo : List Int → List Nat → PRNG → Nat → Nat → List Int × PRNG
  | x, _, g, _, 0 => (x, g)
  | x, idx, g, k, fuel + 1 =>
    let pos := idx.getD k 0
    let rg := g.next
    let v : Int := if rg.1 &&& 1 ≠ 0 then 1 else -1
    assignSignsGo (x.set pos v) idx rg.2 (k + 1) fuel

/-- `SampleSparseTernary` from src/sis_pow_solver.cpp (lines 141-156):
sample a sparse ternary vector of length `m` with `w` nonzero `±1` entries at
`w` positions drawn by a partial Fisher-Yates shuffle of `[0, m)`. -/
def SampleSparseTernary (m w : Nat) (g : PRNG) : List Int × PRNG :=
  let idx0 := List.range m
  let sw := fisherSwapGo idx0 g 0 m w
  assignSignsGo (List.replicate m 0) sw.1 sw.2 0 w

-- ## Bit-level helper lemmas

theorem and_three_lt (a : Nat) : a &&& 3 < 4 :=
  Nat.lt_succ_of_le (Nat.and_le_right)

theorem testBit_three (j : Nat) : Nat.testBit 3 j = decide (j < 2) := by
  match j with
  | 0 => decide
  | 1 => decide
  | j + 2 =>
    have h3 : (3 : Nat) < 2 ^ (j + 2) := by
      have : (4 : Nat) ≤ 2 ^ (j + 2) := by
        have := Nat.pow_le_pow_right (by decide : 0 < 2) (by omega : 2 ≤ j + 2)
        simpa using this
      omega
    simp [Nat.testBit_lt_two_pow h3]

/-- Shifting in from at least two bits above position `t` does not affect the
2-bit group at `t`. -/
theorem or_shl_and_three (a b s t : Nat) (h : t + 2 ≤ s) :
    ((a ||| b <<< s) >>> t) &&& 3 = (a >>> t) &&& 3 := by
  apply Nat.eq_of_testBit_eq
  intro j
  simp only [Nat.testBit_and, Nat.testBit_shiftRight, Nat.testBit_or,
    Nat.testBit_shiftLeft, testBit_three]
  by_cases hj : j < 2
  · have : ¬ s ≤ t + j := by omega
    simp [this]
  · simp [hj]

/-- Reading back the 2-bit group just written: if the low `s` bits of `a` are
the only ones set and `c < 4`, the group at `s` of `a ||| c <<< s` is `c`. -/
theorem or_shl_read_back (a c s : Nat) (ha : a < 2 ^ s) (hc : c < 4) :
    ((a ||| c <<< s) >>> s) &&& 3 = c := by
  apply Nat.eq_of_testBit_eq
  intro j
  simp only [Nat.testBit_and, Nat.testBit_shiftRight, Nat.testBit_or,
    Nat.testBit_shiftLeft, testBit_three]
  have ha' : Nat.testBit a (s + j) = false := by
    apply Nat.testBit_lt_two_pow
    exact lt_of_lt_of_le ha (Nat.pow_le_pow_right (by decide) (by omega))
  by_cases hj : j < 2
  · simp [ha', hj, Nat.add_sub_cancel_left]
  · have hcj : Nat.testBit c j = false := by
      apply Nat.testBit_lt_two_pow
      have : (4 : Nat) ≤ 2 ^ j := by
        have := Nat.pow_le_pow_right (by decide : 0 < 2) (by omega : 2 ≤ j)
        simpa using this
      omega
    simp [hj, ha', hcj, Nat.add_sub_cancel_left]

theorem or_shl_and_three' (a b s : Nat) (h : 2 ≤ s) :
    (a ||| b <<< s) &&& 3 = a &&& 3 := by
  have h0 := or_shl_and_three a b s 0 (by omega)
  simpa using h0

-- ## The decoding loop reads exactly the 2-bit groups

theorem decodeGo_eq_decodeSpec (vch : List Nat) :
    ∀ k i, decodeGo vch (2 * i) k = decodeSpec vch i k := by
  intro k
  induction k with
  | zero => intro i; rfl
  | succ k ih =>
    intro i
    have hidx : 2 * i / 8 = i / 4 := by omega
    have hshift : 2 * i % 8 = 2 * (i % 4) := by omega
    have hbp : 2 * i + 2 = 2 * (i + 1) := by omega
    have htwo :
        ((vch.getD (2 * i / 8) 0 >>> (2 * i % 8)) |||
          (if 2 * i / 8 + 1 < vch.length then vch.getD (2 * i / 8 + 1) 0 else 0) <<<
            (8 - 2 * i % 8)) &&& 3 = groupAt vch i := by
      rw [or_shl_and_three' _ _ _ (by omega), hidx, hshift, groupAt]
    rw [decodeGo, decodeSpec]
    simp only [htwo, hbp, ih]
    have h4 : groupAt vch i < 4 := by
      have := htwo ▸ and_three_lt ((vch.getD (2 * i / 8) 0 >>> (2 * i % 8)) |||
        (if 2 * i / 8 + 1 < vch.length then vch.getD (2 * i / 8 + 1) 0 else 0) <<<
          (8 - 2 * i % 8))
      exact this
    have hcases : groupAt vch i = 0 ∨ groupAt vch i = 1 ∨ groupAt vch i = 2 ∨
        groupAt vch i = 3 := by omega
    rcases hcases with h | h | h | h <;> simp [h, valAt]

theorem unpackGo_eq_decodeGo (vch : List Nat) :
    ∀ k bitpos, unpackGo vch bitpos k = decodeGo vch bitpos k := by
  intro k
  induction k with
  | zero => intro bitpos; rfl
  | succ k ih =>
    intro bitpos
    rw [unpackGo, decodeGo]
    simp only [ih]

theorem UnpackTernary2b_eq_DecodeTernary (vch : List Nat) (m : Nat) :
    UnpackTernary2b vch m = DecodeTernary vch m := by
  unfold UnpackTernary2b DecodeTernary
  rw [unpackGo_eq_decodeGo]

theorem valAt_eq_none_iff (t : Nat) (h : t < 4) : valAt t = none ↔ t = 2 := by
  interval_cases t <;> simp [valAt]

theorem decodeSpec_eq_none_iff (vch : List Nat) :
    ∀ k i, decodeSpec vch i k = none ↔ ∃ j, j < k ∧ groupAt vch (i + j) = 2 := by
  intro k
  induction k with
  | zero =>
    intro i
    simp [decodeSpec]
  | succ k ih =>
    intro i
    rw [decodeSpec]
    rcases hv : valAt (groupAt vch i) with _ | v
    · have hg : groupAt vch i = 2 := (valAt_eq_none_iff _ (and_three_lt _)).1 hv
      exact iff_of_true rfl ⟨0, by omega, by rwa [Nat.add_zero]⟩
    · have hg2 : groupAt vch i ≠ 2 := by
        intro h2
        rw [h2] at hv
        simp [valAt] at hv
      simp only [Option.map_eq_none', ih]
      constructor
      · rintro ⟨j, hj, hg⟩
        exact ⟨j + 1, by omega, by rwa [show i + (j + 1) = i + 1 + j by omega]⟩
      · rintro ⟨j, hj, hg⟩
        match j with
        | 0 =>
          rw [Nat.add_zero] at hg
          exact absurd hg hg2
        | j + 1 =>
          exact ⟨j, by omega, by rwa [show i + 1 + j = i + (j + 1) by omega]⟩

theorem decodeSpec_of_groups (vch : List Nat) :
    ∀ (xs : List Int) (i : Nat),
      (∀ j, j < xs.length → valAt (groupAt vch (i + j)) = some (xs.getD j 0)) →
      decodeSpec vch i xs.length = some xs := by
  intro xs
  induction xs with
  | nil => intro i _; rfl
  | cons v rest ih =>
    intro i h
    have h0 := h 0 (by simp)
    rw [Nat.add_zero] at h0
    simp only [List.getD_cons_zero] at h0
    rw [List.length_cons, decodeSpec, h0]
    have hrest : decodeSpec vch (i + 1) rest.length = some rest := by
      apply ih
      intro j hj
      have := h (j + 1) (by simp; omega)
      have heq : i + (j + 1) = i + 1 + j := by omega
      rw [heq] at this
      simpa using this
    rw [hrest]
    rfl

theorem decodeSpec_some_inv (vch : List Nat) :
    ∀ k i xs, decodeSpec vch i k = some xs →
      xs.length = k ∧ ∀ j, j < k → valAt (groupAt vch (i + j)) = some (xs.getD j 0) := by
  intro k
  induction k with
  | zero =>
    intro i xs h
    simp [decodeSpec] at h
    subst h
    exact ⟨rfl, by omega⟩
  | succ k ih =>
    intro i xs h
    rw [decodeSpec] at h
    rcases hv : valAt (groupAt vch i) with _ | v <;> rw [hv] at h
    · exact absurd h (by simp)
    · rcases hr : decodeSpec vch (i + 1) k with _ | rest <;> rw [hr] at h
      · exact absurd h (by simp)
      · simp only [Option.map_some'] at h
        obtain ⟨hlen, hgroups⟩ := ih (i + 1) rest hr
        cases h
        refine ⟨by simp [hlen], ?_⟩
        intro j hj
        match j with
        | 0 => rw [Nat.add_zero]; simpa using hv
        | j + 1 =>
          rw [show i + (j + 1) = i + 1 + j by omega]
          simpa using hgroups j (by omega)

-- ## Packing: the encoder writes exactly the 2-bit groups

theorem getD_set_self (l : List Nat) (i a : Nat) (h : i < l.length) :
    (l.set i a).getD i 0 = a := by
  simp [List.getElem?_set_self h]

theorem getD_set_ne (l : List Nat) (i j a : Nat) (h : i ≠ j) :
    (l.set i a).getD j 0 = l.getD j 0 := by
  simp [List.getElem?_set_ne h]

theorem ternCode_spec (v : Int) (hv : v = -1 ∨ v = 0 ∨ v = 1) :
    ∃ c, ternCode v = some c ∧ c < 4 ∧ valAt c = some v := by
  rcases hv with h | h | h <;> subst h
  · exact ⟨3, by decide, by decide, by decide⟩
  · exact ⟨0, by decide, by decide, by decide⟩
  · exact ⟨1, by decide, by decide, by decide⟩

theorem packGo_inv :
    ∀ (x : List Int), (∀ v ∈ x, v = -1 ∨ v = 0 ∨ v = 1) →
    ∀ (i : Nat) (out : List Nat),
      out.length = needBytes (i + x.length) →
      out.getD (i / 4) 0 < 2 ^ (2 * (i % 4)) →
      (∀ t, i / 4 < t → out.getD t 0 = 0) →
      ∃ B, packGo x out (2 * i) = some B ∧ B.length = out.length ∧
        (∀ j, j < i → groupAt B j = groupAt out j) ∧
        (∀ j, j < x.length → valAt (groupAt B (i + j)) = some (x.getD j 0)) := by
  intro x
  induction x with
  | nil =>
    intro _ i out h1 _ _
    exact ⟨out, rfl, rfl, fun _ _ => rfl, by simp⟩
  | cons v rest ih =>
    intro hx i out h1 h2 h3
    obtain ⟨c, hcode, hc4, hval⟩ := ternCode_spec v (hx v (by simp))
    have hidx : 2 * i / 8 = i / 4 := by omega
    have hshift : 2 * i % 8 = 2 * (i % 4) := by omega
    have hshift6 : ¬ 6 < 2 * i % 8 := by omega
    have hlen_cons : (v :: rest).length = rest.length + 1 := by simp
    have hlen_pos : i / 4 < out.length := by
      rw [h1, hlen_cons]
      unfold needBytes
      omega
    rw [packGo, hcode]
    simp only [hidx, hshift]
    rw [if_neg (show ¬ 6 < 2 * (i % 4) by omega)]
    have harg : i + (rest.length + 1) = (i + 1) + rest.length := by omega
    obtain ⟨B, hB, hBlen, hBpres, hBgroups⟩ :=
      ih (fun w hw => hx w (by simp [hw])) (i + 1)
        (out.set (i / 4) (out.getD (i / 4) 0 ||| c <<< (2 * (i % 4))))
        (by rw [List.length_set, h1, hlen_cons, harg])
        (by
          by_cases hm : i % 4 = 3
          · have hq : (i + 1) / 4 = i / 4 + 1 := by omega
            have hr : (i + 1) % 4 = 0 := by omega
            rw [hq, hr, getD_set_ne _ _ _ _ (by omega), h3 (i / 4 + 1) (by omega)]
            simp
          · have hq : (i + 1) / 4 = i / 4 := by omega
            have hr : (i + 1) % 4 = i % 4 + 1 := by omega
            rw [hq, hr, getD_set_self _ _ _ hlen_pos]
            apply Nat.or_lt_two_pow
            · exact lt_of_lt_of_le h2 (Nat.pow_le_pow_right (by decide) (by omega))
            · rw [Nat.shiftLeft_eq]
              calc c * 2 ^ (2 * (i % 4)) < 4 * 2 ^ (2 * (i % 4)) :=
                    (Nat.mul_lt_mul_right (Nat.pos_pow_of_pos _ (by decide))).mpr hc4
                _ = 2 ^ (2 * (i % 4 + 1)) := by ring
              )
        (by
          intro t ht
          have hne : i / 4 ≠ t := by omega
          rw [getD_set_ne _ _ _ _ hne]
          exact h3 t (by omega))
    refine ⟨B, ?_, ?_, ?_, ?_⟩
    · rw [show 2 * i + 2 = 2 * (i + 1) by omega]
      exact hB
    · rw [hBlen, List.length_set]
    · intro j hj
      rw [hBpres j (by omega)]
      unfold groupAt
      by_cases hjq : j / 4 = i / 4
      · rw [hjq, getD_set_self _ _ _ hlen_pos]
        have hjr : 2 * (j % 4) + 2 ≤ 2 * (i % 4) := by omega
        rw [or_shl_and_three _ _ _ _ hjr]
      · rw [getD_set_ne _ _ _ _ (fun h => hjq h.symm)]
    · intro j hj
      match j with
      | 0 =>
        rw [Nat.add_zero, hBpres i (by omega)]
        unfold groupAt
        rw [getD_set_self _ _ _ hlen_pos, or_shl_read_back _ _ _ h2 hc4]
        simpa using hval
      | j + 1 =>
        rw [show i + (j + 1) = (i + 1) + j by omega]
        have := hBgroups j (by rw [hlen_cons] at hj; omega)
        simpa using this

theorem getD_replicate_zero (n t : Nat) : (List.replicate n (0 : Nat)).getD t 0 = 0 := by
  simp only [List.getD_eq_getElem?_getD, List.getElem?_replicate]
  split <;> rfl

theorem PackTernary_spec (x : List Int) (hx : ∀ v ∈ x, v = -1 ∨ v = 0 ∨ v = 1) :
    ∃ B, PackTernary x = some B ∧ B.length = needBytes x.length ∧
      ∀ j, j < x.length → valAt (groupAt B j) = some (x.getD j 0) := by
  obtain ⟨B, hB, hBlen, _, hBgroups⟩ :=
    packGo_inv x hx 0 (List.replicate (needBytes x.length) 0)
      (by simp [needBytes])
      (by rw [getD_replicate_zero]; simp)
      (fun t _ => getD_replicate_zero _ _)
  refine ⟨B, ?_, by rw [hBlen, List.length_replicate], ?_⟩
  · rw [← hB, PackTernary]
    rfl
  · intro j hj
    simpa using hBgroups j hj

-- ## Claim C1: short solutions (corrected)

/-- C1 counterexample: a header with an EMPTY `pow_solution` (shorter than
`⌈2m/8⌉` bytes) is ACCEPTED by the approximate-SIS verifier, which returns
`true` before any decoding takes place. -/
theorem c1_empty_solution_accepted_cex :
    hdrEmptySol.vchPowSolution.length < needBytes prmsTest.sis_m ∧
      CheckProofOfWorkSIS shaZero hdrEmptySol prmsTest = true := by
  refine ⟨by decide, by decide⟩

/-- C1 (amended): for every header whose `pow_solution` is non-empty but
shorter than `⌈2m/8⌉` bytes, the approximate-SIS verifier rejects: decoding
fails on insufficient input and the decode error makes the verifier return
`false`.  (An empty `pow_solution` is instead accepted unconditionally.) -/
theorem c1_short_nonempty_solution_rejected (sha256 : List Nat → List Nat)
    (header : CBlockHeader) (params : ConsensusParams)
    (h1 : header.vchPowSolution ≠ [])
    (h2 : header.vchPowSolution.length < needBytes params.sis_m) :
    CheckProofOfWorkSIS sha256 header params = false := by
  unfold CheckProofOfWorkSIS
  rw [if_neg h1]
  have hdec : UnpackTernary2b header.vchPowSolution params.sis_m = none := by
    rw [UnpackTernary2b, if_pos (by unfold needBytes at h2; omega)]
  rw [hdec]

/-- Witness for (amended) C1: the one-byte solution with `m = 8`. -/
theorem c1_short_nonempty_solution_rejected_witness :
    CheckProofOfWorkSIS shaZero hdrShortSol prmsTest = false :=
  c1_short_nonempty_solution_rejected shaZero hdrShortSol prmsTest
    (by decide) (by decide)

-- ## Claim C2: seed excludes the solution

/-- C2: two headers that differ only in `pow_solution` produce the identical
80-byte serialization, hence the identical seed (the black-box SHA-256 of
that serialization) and the identical derived matrix `A`. -/
theorem c2_seed_excludes_solution (sha256 : List Nat → List Nat)
    (h1 h2 : CBlockHeader)
    (hv : h1.nVersion = h2.nVersion)
    (hp : h1.hashPrevBlock = h2.hashPrevBlock)
    (hm : h1.hashMerkleRoot = h2.hashMerkleRoot)
    (ht : h1.nTime = h2.nTime)
    (hb : h1.nBits = h2.nBits)
    (hn : h1.nNonce = h2.nNonce) :
    GenerateSeed h1 = GenerateSeed h2 ∧
      (GenerateSeed h1).length = 80 ∧
      HeaderSeed sha256 h1 = HeaderSeed sha256 h2 ∧
      ∀ n m q, DeriveMatrixA sha256 (HeaderSeed sha256 h1) n m q =
        DeriveMatrixA sha256 (HeaderSeed sha256 h2) n m q := by
  have hgs : GenerateSeed h1 = GenerateSeed h2 := by
    unfold GenerateSeed
    rw [hv, hp, hm, ht, hb, hn]
  have hhs : HeaderSeed sha256 h1 = HeaderSeed sha256 h2 := by
    unfold HeaderSeed
    rw [hgs]
  refine ⟨hgs, ?_, hhs, fun n m q => by rw [hhs]⟩
  unfold GenerateSeed
  simp

/-- Witness for C2: two concrete headers differing only in the solution. -/
theorem c2_seed_excludes_solution_witness :
    GenerateSeed hdrEmptySol = GenerateSeed hdrZeroSol ∧
      (GenerateSeed hdrEmptySol).length = 80 ∧
      HeaderSeed shaZero hdrEmptySol = HeaderSeed shaZero hdrZeroSol ∧
      ∀ n m q, DeriveMatrixA shaZero (HeaderSeed shaZero hdrEmptySol) n m q =
        DeriveMatrixA shaZero (HeaderSeed shaZero hdrZeroSol) n m q :=
  c2_seed_excludes_solution shaZero hdrEmptySol hdrZeroSol
    rfl rfl rfl rfl rfl rfl

-- ## Claim C4: the weight gate (corrected)

/-- C4 counterexample: the all-zero decoded solution has weight `0 ≤ w = 1`
and zero residual, so per the claim the approximate verifier should accept;
the code rejects it, because its weight gate demands `L0(x) == w` exactly. -/
theorem c4_weight_below_w_rejected_cex :
    UnpackTernary2b hdrZeroSol.vchPowSolution prmsTest.sis_m =
        some [0, 0, 0, 0, 0, 0, 0, 0] ∧
      L0 [0, 0, 0, 0, 0, 0, 0, 0] ≤ prmsTest.sis_w ∧
      LinfCentered
        (MatVecMod
          (DeriveMatrixA shaZero (HeaderSeed shaZero hdrZeroSol)
            prmsTest.sis_n prmsTest.sis_m prmsTest.sis_q)
          [0, 0, 0, 0, 0, 0, 0, 0] prmsTest.sis_n prmsTest.sis_m prmsTest.sis_q)
        prmsTest.sis_q ≤ prmsTest.sis_r_fixed ∧
      CheckProofOfWorkSIS shaZero hdrZeroSol prmsTest = false := by
  refine ⟨by decide, by decide, by decide, by decide⟩

/-- C4 (amended): for a non-empty solution decoding to `x`, the verifier's
weight gate rejects iff `L0(x) ≠ w` (strict equality, not `L0(x) > w`); when
`L0(x) = w` the verdict is exactly the residual check. -/
theorem c4_weight_gate_is_strict_equality (sha256 : List Nat → List Nat)
    (header : CBlockHeader) (params : ConsensusParams) (x : List Int)
    (hne : header.vchPowSolution ≠ [])
    (hdec : UnpackTernary2b header.vchPowSolution params.sis_m = some x) :
    (L0 x ≠ params.sis_w → CheckProofOfWorkSIS sha256 header params = false) ∧
    (L0 x = params.sis_w → CheckProofOfWorkSIS sha256 header params =
      decide (LinfCentered
        (MatVecMod
          (DeriveMatrixA sha256 (HeaderSeed sha256 header)
            params.sis_n params.sis_m params.sis_q)
          x params.sis_n params.sis_m params.sis_q) params.sis_q ≤
        (if params.sis_dynamic_r then MapNBitsToR header.nBits params.sis_q
         else params.sis_r_fixed))) := by
  unfold CheckProofOfWorkSIS
  rw [if_neg hne, hdec]
  constructor
  · intro hw
    simp only []
    rw [if_pos hw]
  · intro hw
    simp only []
    rw [if_neg (not_not_intro hw)]

/-- Witness for (amended) C4: the all-zero solution with `w = 1` is rejected
by the weight gate. -/
theorem c4_weight_gate_is_strict_equality_witness :
    CheckProofOfWorkSIS shaZero hdrZeroSol prmsTest = false :=
  (c4_weight_gate_is_strict_equality shaZero hdrZeroSol prmsTest
    [0, 0, 0, 0, 0, 0, 0, 0] (by decide) (by decide)).1 (by decide)

-- ## Claim C5: codec round trip

/-- C5: for every ternary vector `x` in \x7b-1,0,+1\x7d^m, decoding the encoding of
`x` with length parameter `m = x.length` succeeds and returns `x`:
`DecodeTernary (PackTernary x) x.length = some x`. -/
theorem c5_codec_round_trip (x : List Int) (hx : ∀ v ∈ x, v = -1 ∨ v = 0 ∨ v = 1) :
    ∃ B, PackTernary x = some B ∧ DecodeTernary B x.length = some x := by
  obtain ⟨B, hpack, hlen, hgroups⟩ := PackTernary_spec x hx
  refine ⟨B, hpack, ?_⟩
  rw [DecodeTernary, if_neg (by rw [hlen]; unfold needBytes; omega)]
  have h0 := decodeGo_eq_decodeSpec B x.length 0
  rw [Nat.mul_zero] at h0
  rw [h0]
  exact decodeSpec_of_groups B x 0 (fun j hj => by simpa using hgroups j hj)

/-- Witness for C5 at the concrete ternary vector `[1, -1, 0]`. -/
theorem c5_codec_round_trip_witness :
    ∃ B, PackTernary [1, -1, 0] = some B ∧
      DecodeTernary B (List.length [1, -1, 0]) = some [1, -1, 0] :=
  c5_codec_round_trip [1, -1, 0] (by decide)

-- ## Claim C6: canonical rejection (corrected)

/-- C6 counterexample: the byte string `[0]` decodes (with `m = 1`) to `[0]`,
and flipping the unused padding bit 2 of the last byte (`[0] ↦ [4]`) does NOT
cause decoding to fail: the decoder ignores padding bits, contradicting the
claim that flipping any unused tail bit causes decode failure. -/
theorem c6_padding_cex :
    DecodeTernary [0] 1 = some [0] ∧
      DecodeTernary [0 ^^^ (1 <<< 2)] 1 = some [0] ∧
      DecodeTernary [0 ^^^ (1 <<< 2)] 1 ≠ none := by
  refine ⟨by decide, by decide, by decide⟩

/-- C6 (amended): replacing any 2-bit group at index `i < m` with the invalid
pattern `10` (value 2) causes decoding with length `m` to fail; flipping unused
padding bits, by contrast, never affects the result: decoding depends only on
the `m` groups below bit `2m`, so any byte string agreeing with `vch` on those
groups decodes to the same vector. -/
theorem c6_group_rejection_padding_ignored :
    (∀ (vch : List Nat) (m : Nat), needBytes m ≤ vch.length →
      ∀ i, i < m → groupAt vch i = 2 → DecodeTernary vch m = none) ∧
    (∀ (vch vch' : List Nat) (m : Nat) (x : List Int), DecodeTernary vch m = some x →
      vch'.length = vch.length → (∀ j, j < m → groupAt vch' j = groupAt vch j) →
      DecodeTernary vch' m = some x) := by
  constructor
  · intro vch m hlen i hi hg
    rw [DecodeTernary, if_neg (by unfold needBytes at hlen; omega)]
    have h0 := decodeGo_eq_decodeSpec vch m 0
    rw [Nat.mul_zero] at h0
    rw [h0]
    exact (decodeSpec_eq_none_iff vch m 0).2 ⟨i, hi, by simpa using hg⟩
  · intro vch vch' m x hx hlen hgroups
    rw [DecodeTernary] at hx
    by_cases hguard : vch.length < (m * 2 + 7) / 8
    · rw [if_pos hguard] at hx
      exact absurd hx (by simp)
    · rw [if_neg hguard] at hx
      have h0 := decodeGo_eq_decodeSpec vch m 0
      rw [Nat.mul_zero] at h0
      rw [h0] at hx
      obtain ⟨hxlen, hvals⟩ := decodeSpec_some_inv vch m 0 x hx
      rw [DecodeTernary, if_neg (by omega)]
      have h0' := decodeGo_eq_decodeSpec vch' m 0
      rw [Nat.mul_zero] at h0'
      rw [h0', ← hxlen]
      apply decodeSpec_of_groups
      intro j hj
      rw [Nat.zero_add, hgroups j (by omega)]
      simpa using hvals j (by omega)

/-- Witness for C6: the group-injection part at `vch = [2]`, `m = 1`
(group 0 is `10`), and the padding-invariance part at `[1] ↦ [9]`
(bit 3 is padding). -/
theorem c6_group_rejection_padding_ignored_witness :
    DecodeTernary [2] 1 = none ∧ DecodeTernary [9] 1 = some [1] :=
  ⟨c6_group_rejection_padding_ignored.1 [2] 1 (by decide) 0 (by decide) (by decide),
   c6_group_rejection_padding_ignored.2 [1] [9] 1 [1] (by decide) (by decide) (by decide)⟩

-- ## Claim C8: dynamic residual threshold

/-- C8: with dynamic `r` enabled the effective residual bound is
`max(1, q/8 - exponent(bits))` where `exponent` is the high byte of `bits`;
it is antitone in the exponent and always at least 1. -/
theorem c8_map_nbits_to_r :
    (∀ nBits q, MapNBitsToR nBits q = max 1 (((q / 8 : Nat) : Int) - (exponentOf nBits : Int))) ∧
    (∀ nBits, nBits < 2 ^ 32 → exponentOf nBits = nBits / 2 ^ 24) ∧
    (∀ q nBits1 nBits2, exponentOf nBits1 < exponentOf nBits2 →
      MapNBitsToR nBits2 q ≤ MapNBitsToR nBits1 q) ∧
    (∀ nBits q, 1 ≤ MapNBitsToR nBits q) := by
  refine ⟨?_, ?_, ?_, ?_⟩
  · intro nBits q
    rw [MapNBitsToR, Nat.shiftRight_eq_div_pow]
  · intro nBits h
    rw [exponentOf, Nat.shiftRight_eq_div_pow,
      show (0xff : Nat) = 2 ^ 8 - 1 by decide, Nat.and_pow_two_sub_one_eq_mod]
    omega
  · intro q b1 b2 h
    unfold MapNBitsToR
    exact max_le_max le_rfl (by omega)
  · intro nBits q
    exact le_max_left _ _

/-- Witness for C8 at `q = 12289`, exponents `0x1e < 0x1f`. -/
theorem c8_map_nbits_to_r_witness :
    exponentOf 0x1e000000 = 0x1e000000 / 2 ^ 24 ∧
      MapNBitsToR 0x1f000000 12289 ≤ MapNBitsToR 0x1e000000 12289 :=
  ⟨c8_map_nbits_to_r.2.1 0x1e000000 (by decide),
   c8_map_nbits_to_r.2.2.1 12289 0x1e000000 0x1f000000 (by decide)⟩

-- ## Claim C9: concrete codec vector (corrected)

/-- C9 counterexample: the encoder does NOT produce the bytes
`[0b11010100, 0b00110111]` claimed by the spec for
`x = [0, +1, -1, 0, +1, +1, -1, 0]`. -/
theorem c9_s1_vector_cex :
    PackTernary [0, 1, -1, 0, 1, 1, -1, 0] ≠ some [0b11010100, 0b00110111] := by
  decide

/-- C9 (amended): for `m = 8` and `x = [0, +1, -1, 0, +1, +1, -1, 0]` the
encoder produces exactly the two bytes `[0b00110100, 0b00110101]`
(codes `00 01 11 00` and `01 01 11 00` packed little-endian within each byte),
and decoding those bytes with length 8 returns the original `x`. -/
theorem c9_s1_vector :
    PackTernary [0, 1, -1, 0, 1, 1, -1, 0] = some [0b00110100, 0b00110101] ∧
      DecodeTernary [0b00110100, 0b00110101] 8 = some [0, 1, -1, 0, 1, 1, -1, 0] := by
  refine ⟨by decide, by decide⟩

-- ## Claim C7: the strict-SIS verifier

theorem neg_lt_tmod (a q : Int) (hq : 0 < q) : -q < a.tmod q := by
  rcases a with m | m <;> rcases q with n | n
  · have h1 : 0 ≤ (Int.ofNat m).tmod (Int.ofNat n) :=
      Int.tmod_nonneg (Int.ofNat n) (by exact Int.ofNat_nonneg m)
    omega
  · rw [Int.negSucc_eq] at hq
    omega
  · have hdef : Int.tmod (Int.negSucc m) (Int.ofNat n) = -(Int.ofNat ((m + 1) % n)) := rfl
    rw [hdef]
    have hn : 0 < n := by
      simpa [Int.ofNat_eq_natCast] using hq
    have hmod : (m + 1) % n < n := Nat.mod_lt _ hn
    simp only [Int.ofNat_eq_natCast]
    omega
  · rw [Int.negSucc_eq] at hq
    omega

theorem tmod_adjust_eq_emod (a q : Int) (hq : 0 < q) :
    (if a.tmod q < 0 then a.tmod q + q else a.tmod q) = a % q := by
  have hcong : a.tmod q % q = a % q := by
    conv_rhs => rw [← Int.tmod_add_tdiv a q]
    rw [Int.add_mul_emod_self_left]
  have hlt : a.tmod q < q := Int.tmod_lt_of_pos a hq
  have hgt : -q < a.tmod q := neg_lt_tmod a q hq
  by_cases hneg : a.tmod q < 0
  · rw [if_pos hneg, ← hcong]
    have h2 : (a.tmod q + q) % q = a.tmod q % q := by
      have h3 := Int.add_mul_emod_self_left (a.tmod q) q 1
      rwa [Int.mul_one] at h3
    rw [← h2, Int.emod_eq_of_lt (by omega) (by omega)]
  · rw [if_neg hneg, ← hcong, Int.emod_eq_of_lt (by omega) (by omega)]

theorem foldl_add_eq_sum' (l : List Nat) (f : Nat → Int) (a : Int) :
    l.foldl (fun acc j => acc + f j) a = a + (l.map f).sum := by
  induction l generalizing a with
  | nil => simp
  | cons b t ih =>
    simp only [List.foldl_cons, List.map_cons, List.sum_cons, ih]
    ring

/-- C7: `VerifySIS` returns true iff `x` has length `m`, the Hamming weight of
`x` is within the bound `w`, and every row satisfies
`(Σ_j A[i][j]·x[j]) mod q = b[i]`; any single failing coordinate makes it
return false (contrapositive of the backward direction). -/
theorem c7_verify_sis_iff (I : SISInstance) (sp : SISParams) (x : List Int)
    (hq0 : 0 < sp.q) (hq16 : sp.q ≤ 65536) :
    VerifySIS I sp x = true ↔
      x.length = sp.m ∧ L0 x ≤ sp.w ∧
        ∀ i, i < sp.n →
          ((List.range sp.m).map
            (fun j => (I.A.getD (i * sp.m + j) 0 : Int) * x.getD j 0)).sum % (sp.q : Int)
            = (I.b.getD i 0 : Int) := by
  have hq0' : (0 : Int) < (sp.q : Int) := by exact_mod_cast hq0
  have hq16' : ((sp.q : Nat) : Int) ≤ 65536 := by exact_mod_cast hq16
  have hrow : ∀ i : Nat,
      ((let acc : Int := (List.range sp.m).foldl
          (fun acc j => acc + (I.A.getD (i * sp.m + j) 0 : Int) * x.getD j 0) 0
        let mod0 := acc.tmod (sp.q : Int)
        let m1 := if mod0 < 0 then mod0 + (sp.q : Int) else mod0
        decide (m1.toNat % 65536 = I.b.getD i 0)) = true) ↔
      ((List.range sp.m).map
        (fun j => (I.A.getD (i * sp.m + j) 0 : Int) * x.getD j 0)).sum % (sp.q : Int)
        = (I.b.getD i 0 : Int) := by
    intro i
    simp only [foldl_add_eq_sum', zero_add, decide_eq_true_eq]
    rw [tmod_adjust_eq_emod _ _ hq0']
    have h0 : 0 ≤ ((List.range sp.m).map
        (fun j => (I.A.getD (i * sp.m + j) 0 : Int) * x.getD j 0)).sum % (sp.q : Int) :=
      Int.emod_nonneg _ (by omega)
    have hlt : ((List.range sp.m).map
        (fun j => (I.A.getD (i * sp.m + j) 0 : Int) * x.getD j 0)).sum % (sp.q : Int)
        < (sp.q : Int) := Int.emod_lt_of_pos _ hq0'
    omega
  unfold VerifySIS
  by_cases hlen : x.length = sp.m
  · rw [if_neg (not_not_intro hlen)]
    by_cases hw : sp.w < L0 x
    · rw [if_pos hw]
      simp only [Bool.false_eq_true, false_iff]
      rintro ⟨-, h2, -⟩
      omega
    · rw [if_neg hw, List.all_eq_true]
      constructor
      · intro hall
        exact ⟨hlen, by omega, fun i hi => (hrow i).1 (hall i (List.mem_range.mpr hi))⟩
      · rintro ⟨-, -, hrows⟩
        intro i hmem
        exact (hrow i).2 (hrows i (List.mem_range.mp hmem))
  · rw [if_pos hlen]
    simp [hlen]

/-- Witness for C7 at `n = 1`, `m = 2`, `q = 5`, `w = 2`, `A = [3, 4]`,
`b = [4]`, `x = [1, -1]` (indeed `3 - 4 ≡ 4 (mod 5)`). -/
theorem c7_verify_sis_iff_witness :
    VerifySIS ⟨[3, 4], [4]⟩ ⟨1, 2, 5, 2⟩ [1, -1] = true ↔
      List.length [(1 : Int), -1] = 2 ∧ L0 [1, -1] ≤ 2 ∧
        ∀ i, i < 1 →
          ((List.range 2).map
            (fun j => ((List.getD ([3, 4] : List Nat) (i * 2 + j) 0 : Nat) : Int) *
              List.getD [(1 : Int), -1] j 0)).sum % ((5 : Nat) : Int)
            = ((List.getD ([4] : List Nat) i 0 : Nat) : Int) :=
  c7_verify_sis_iff ⟨[3, 4], [4]⟩ ⟨1, 2, 5, 2⟩ [1, -1] (by decide) (by decide)

-- ## Claim C10: the miner sampler

theorem getD_eq_getElem {α} (l : List α) (i : Nat) (d : α) (h : i < l.length) :
    l.getD i d = l[i] := by
  simp [List.getD_eq_getElem?_getD, List.getElem?_eq_getElem h]

theorem set_getD_self {α} (l : List α) (i : Nat) (d : α) : l.set i (l.getD i d) = l := by
  induction l generalizing i with
  | nil => rfl
  | cons a t ih =>
    match i with
    | 0 => rfl
    | i + 1 => simpa using ih i

theorem swap_perm_lt (l : List Nat) (i j : Nat) (hij : i < j) (hj : j < l.length) :
    ((l.set i (l.getD j 0)).set j (l.getD i 0)).Perm l := by
  have hi : i < l.length := Nat.lt_trans hij hj
  have hXlen : j - i - 1 < (l.drop (i + 1)).length := by
    rw [List.length_drop]
    omega
  have htake : (l.take i).length = i := by
    rw [List.length_take]
    omega
  have h1 : l.set i (l.getD j 0) = l.take i ++ l.getD j 0 :: l.drop (i + 1) :=
    List.set_eq_take_cons_drop _ hi
  have h2 : (l.take i ++ l.getD j 0 :: l.drop (i + 1)).set j (l.getD i 0) =
      l.take i ++ l.getD j 0 ::
        ((l.drop (i + 1)).take (j - i - 1) ++ l.getD i 0 :: (l.drop (i + 1)).drop (j - i)) := by
    rw [List.set_append_right _ _ (by omega), htake]
    rw [show j - i = (j - i - 1) + 1 by omega, List.set_cons_succ]
    rw [List.set_eq_take_cons_drop _ hXlen]
    rw [show j - i - 1 + 1 = j - i by omega]
  have h3 : l = l.take i ++ l.getD i 0 :: l.drop (i + 1) := by
    conv_lhs => rw [← List.take_append_drop i l]
    rw [List.drop_eq_getElem_cons hi, getD_eq_getElem _ _ _ hi]
  have h4 : l.drop (i + 1) =
      (l.drop (i + 1)).take (j - i - 1) ++ l.getD j 0 :: (l.drop (i + 1)).drop (j - i) := by
    conv_lhs => rw [← List.take_append_drop (j - i - 1) (l.drop (i + 1))]
    rw [List.drop_eq_getElem_cons hXlen]
    congr 2
    · rw [List.getElem_drop, getD_eq_getElem _ _ _ hj]
      congr 1
      omega
    · congr 1
      omega
  rw [h1, h2]
  conv_rhs => rw [h3, h4]
  apply List.Perm.append_left
  exact (List.Perm.cons _ List.perm_middle).trans
    ((List.Perm.swap _ _ _).trans (List.Perm.cons _ List.perm_middle.symm))

theorem swap_perm (l : List Nat) (i j : Nat) (hi : i < l.length) (hj : j < l.length) :
    ((l.set i (l.getD j 0)).set j (l.getD i 0)).Perm l := by
  rcases Nat.lt_trichotomy i j with h | h | h
  · exact swap_perm_lt l i j h hj
  · subst h
    rw [List.set_set, set_getD_self]
  · rw [List.set_comm _ _ _ (by omega)]
    exact swap_perm_lt l j i h hi

theorem fisherSwapGo_perm :
    ∀ (fuel i m : Nat) (idx : List Nat) (g : PRNG),
      idx.length = m → i + fuel ≤ m →
      ((fisherSwapGo idx g i m fuel).1).Perm idx := by
  intro fuel
  induction fuel with
  | zero => intro i m idx g _ _; exact List.Perm.refl _
  | succ fuel ih =>
    intro i m idx g hlen hle
    rw [fisherSwapGo]
    have him : i < m := by omega
    have hjlt : (uniformInt g i (m - 1)).1 < m := by
      unfold uniformInt
      simp only []
      have hpos : 0 < m - 1 - i + 1 := by omega
      have := Nat.mod_lt (g.next).1 hpos
      omega
    have hperm := swap_perm idx i (uniformInt g i (m - 1)).1
      (by omega) (by omega)
    have hrec := ih (i + 1) m
      ((idx.set i (idx.getD (uniformInt g i (m - 1)).1 0)).set
        (uniformInt g i (m - 1)).1 (idx.getD i 0))
      (uniformInt g i (m - 1)).2
      (by simp [hlen]) (by omega)
    exact hrec.trans hperm

theorem mem_of_mem_set {α} (l : List α) (p : Nat) (a v : α) (h : v ∈ l.set p a) :
    v = a ∨ v ∈ l := by
  induction l generalizing p with
  | nil => simp at h
  | cons b t ih =>
    match p with
    | 0 =>
      rcases List.mem_cons.mp h with h1 | h1
      · exact Or.inl h1
      · exact Or.inr (List.mem_cons_of_mem _ h1)
    | p + 1 =>
      rcases List.mem_cons.mp h with h1 | h1
      · exact Or.inr (h1 ▸ List.mem_cons_self _ _)
      · rcases ih p h1 with h2 | h2
        · exact Or.inl h2
        · exact Or.inr (List.mem_cons_of_mem _ h2)

theorem assignSignsGo_length :
    ∀ (fuel : Nat) (x : List Int) (idx : List Nat) (g : PRNG) (k : Nat),
      ((assignSignsGo x idx g k fuel).1).length = x.length := by
  intro fuel
  induction fuel with
  | zero => intro x idx g k; rfl
  | succ fuel ih =>
    intro x idx g k
    rw [assignSignsGo]
    rw [ih]
    simp

theorem assignSignsGo_mem :
    ∀ (fuel : Nat) (x : List Int) (idx : List Nat) (g : PRNG) (k : Nat) (v : Int),
      v ∈ (assignSignsGo x idx g k fuel).1 → v ∈ x ∨ v = 1 ∨ v = -1 := by
  intro fuel
  induction fuel with
  | zero => intro x idx g k v hv; exact Or.inl hv
  | succ fuel ih =>
    intro x idx g k v hv
    rw [assignSignsGo] at hv
    rcases ih _ _ _ _ _ hv with h1 | h1
    · rcases mem_of_mem_set _ _ _ _ h1 with h2 | h2
      · by_cases hbit : ((g.next).1 &&& 1 ≠ 0)
        · rw [if_pos hbit] at h2; exact Or.inr (Or.inl h2)
        · rw [if_neg hbit] at h2; exact Or.inr (Or.inr h2)
      · exact Or.inl h2
    · exact Or.inr h1

theorem getD_set_ne_gen {α} (l : List α) (i j : Nat) (a d : α) (h : i ≠ j) :
    (l.set i a).getD j d = l.getD j d := by
  simp [List.getElem?_set_ne h]

theorem getD_replicate_gen {α} (n t : Nat) (a : α) :
    (List.replicate n a).getD t a = a := by
  simp only [List.getD_eq_getElem?_getD, List.getElem?_replicate]
  split <;> rfl

theorem L0_foldl_general (x : List Int) :
    ∀ s : Nat, x.foldl (fun s v => if v ≠ 0 then s + 1 else s) s =
      s + x.countP (fun u => decide (u ≠ 0)) := by
  induction x with
  | nil => intro s; simp
  | cons a t ih =>
    intro s
    rw [List.foldl_cons, List.countP_cons]
    by_cases ha : a ≠ 0
    · rw [if_pos ha, ih]
      simp [ha]
      omega
    · rw [if_neg ha, ih]
      simp [ha]

theorem L0_eq_countP (x : List Int) : L0 x = x.countP (fun u => decide (u ≠ 0)) := by
  rw [L0, L0_foldl_general, Nat.zero_add]

theorem countP_set_nonzero (x : List Int) (p : Nat) (v : Int) (hp : p < x.length)
    (h0 : x.getD p 0 = 0) (hv : v ≠ 0) :
    (x.set p v).countP (fun u => decide (u ≠ 0)) =
      x.countP (fun u => decide (u ≠ 0)) + 1 := by
  rw [List.set_eq_take_cons_drop v hp]
  conv_rhs => rw [← List.take_append_drop p x, List.drop_eq_getElem_cons hp]
  rw [List.countP_append, List.countP_append, List.countP_cons, List.countP_cons]
  have hx0 : x[p] = (0 : Int) := by rw [← getD_eq_getElem x p 0 hp]; exact h0
  rw [hx0]
  simp [hv]
  omega

theorem assignSignsGo_countP :
    ∀ (fuel : Nat) (x : List Int) (idx : List Nat) (g : PRNG) (k : Nat),
      (∀ t, t < fuel → idx.getD (k + t) 0 < x.length) →
      (∀ t1 t2, t1 < t2 → t2 < fuel → idx.getD (k + t1) 0 ≠ idx.getD (k + t2) 0) →
      (∀ t, t < fuel → x.getD (idx.getD (k + t) 0) 0 = 0) →
      ((assignSignsGo x idx g k fuel).1).countP (fun u => decide (u ≠ 0)) =
        x.countP (fun u => decide (u ≠ 0)) + fuel := by
  intro fuel
  induction fuel with
  | zero => intro x idx g k _ _ _; rfl
  | succ fuel ih =>
    intro x idx g k hposs hdist hfresh
    rw [assignSignsGo]
    have hvne : (if (g.next).1 &&& 1 ≠ 0 then (1 : Int) else -1) ≠ 0 := by
      split <;> decide
    have hplen : idx.getD k 0 < x.length := by
      have := hposs 0 (by omega)
      simpa using this
    have h0 : x.getD (idx.getD k 0) 0 = 0 := by
      have := hfresh 0 (by omega)
      simpa using this
    rw [ih (x.set (idx.getD k 0) (if (g.next).1 &&& 1 ≠ 0 then (1 : Int) else -1)) idx
      (g.next).2 (k + 1)
      (by
        intro t ht
        rw [List.length_set]
        have := hposs (t + 1) (by omega)
        rw [show k + (t + 1) = k + 1 + t by omega] at this
        exact this)
      (by
        intro t1 t2 h12 h2
        have := hdist (t1 + 1) (t2 + 1) (by omega) (by omega)
        rw [show k + (t1 + 1) = k + 1 + t1 by omega,
          show k + (t2 + 1) = k + 1 + t2 by omega] at this
        exact this)
      (by
        intro t ht
        have hne : idx.getD k 0 ≠ idx.getD (k + 1 + t) 0 := by
          have := hdist 0 (t + 1) (by omega) (by omega)
          rw [show k + 0 = k by omega, show k + (t + 1) = k + 1 + t by omega] at this
          exact this
        rw [getD_set_ne_gen _ _ _ _ _ hne]
        have := hfresh (t + 1) (by omega)
        rw [show k + (t + 1) = k + 1 + t by omega] at this
        exact this)]
    rw [countP_set_nonzero x (idx.getD k 0) _ hplen h0 hvne]
    omega

/-- C10: for every PRNG state and every `1 ≤ m`, `w ≤ m`, the sampled vector
has length exactly `m`, entries in \x7b-1, 0, +1\x7d, and Hamming weight
(`L0`) exactly `w`: every miner candidate meets the strict weight requirement
by construction. -/
theorem c10_sampler_exact_weight (g : PRNG) (m w : Nat) (hm : 1 ≤ m) (hw : w ≤ m) :
    ((SampleSparseTernary m w g).1).length = m ∧
    (∀ v ∈ (SampleSparseTernary m w g).1, v = -1 ∨ v = 0 ∨ v = 1) ∧
    L0 (SampleSparseTernary m w g).1 = w := by
  unfold SampleSparseTernary
  have hperm : ((fisherSwapGo (List.range m) g 0 m w).1).Perm (List.range m) :=
    fisherSwapGo_perm w 0 m (List.range m) g (by simp) (by omega)
  have hlen : ((fisherSwapGo (List.range m) g 0 m w).1).length = m := by
    rw [hperm.length_eq, List.length_range]
  have hnodup : ((fisherSwapGo (List.range m) g 0 m w).1).Nodup :=
    hperm.nodup_iff.mpr (List.nodup_range m)
  have hmem : ∀ v ∈ (fisherSwapGo (List.range m) g 0 m w).1, v < m := fun v hv =>
    List.mem_range.mp (hperm.mem_iff.mp hv)
  have hgetlt : ∀ t, t < w → ((fisherSwapGo (List.range m) g 0 m w).1).getD t 0 < m := by
    intro t ht
    have htl : t < ((fisherSwapGo (List.range m) g 0 m w).1).length := by omega
    rw [getD_eq_getElem _ _ _ htl]
    exact hmem _ (List.getElem_mem htl)
  have hgetne : ∀ t1 t2, t1 < t2 → t2 < w →
      ((fisherSwapGo (List.range m) g 0 m w).1).getD t1 0 ≠
        ((fisherSwapGo (List.range m) g 0 m w).1).getD t2 0 := by
    intro t1 t2 h12 h2
    have h1l : t1 < ((fisherSwapGo (List.range m) g 0 m w).1).length := by omega
    have h2l : t2 < ((fisherSwapGo (List.range m) g 0 m w).1).length := by omega
    rw [getD_eq_getElem _ _ _ h1l, getD_eq_getElem _ _ _ h2l]
    intro heq
    have := (hnodup.getElem_inj_iff).mp heq
    omega
  refine ⟨?_, ?_, ?_⟩
  · rw [assignSignsGo_length, List.length_replicate]
  · intro v hv
    rcases assignSignsGo_mem _ _ _ _ _ _ hv with h1 | h1 | h1
    · rw [List.eq_of_mem_replicate h1]
      exact Or.inr (Or.inl rfl)
    · exact Or.inr (Or.inr h1)
    · exact Or.inl h1
  · rw [L0_eq_countP]
    rw [assignSignsGo_countP w (List.replicate m 0) _ _ 0
      (by
        intro t ht
        rw [List.length_replicate, Nat.zero_add]
        exact hgetlt t ht)
      (by
        intro t1 t2 h12 h2
        rw [Nat.zero_add, Nat.zero_add]
        exact hgetne t1 t2 h12 h2)
      (by
        intro t ht
        exact getD_replicate_gen _ _ _)]
    rw [List.countP_eq_zero.mpr, Nat.zero_add]
    intro a ha
    rw [List.eq_of_mem_replicate ha]
    decide

/-- Witness for C10 at `m = 4`, `w = 2` and a concrete PRNG state. -/
theorem c10_sampler_exact_weight_witness :
    ((SampleSparseTernary 4 2 ⟨1, 2, 3, 4⟩).1).length = 4 ∧
    (∀ v ∈ (SampleSparseTernary 4 2 ⟨1, 2, 3, 4⟩).1, v = -1 ∨ v = 0 ∨ v = 1) ∧
    L0 (SampleSparseTernary 4 2 ⟨1, 2, 3, 4⟩).1 = 2 :=
  c10_sampler_exact_weight ⟨1, 2, 3, 4⟩ 4 2 (by decide) (by decide)

-- ## Claim C3: PoW dispatch

/-- C3: in `LATTICE_SIS` mode `CheckProofOfWork` returns true iff the
classical compact-target check passes (valid target from `nBits` not above
`pow_limit`, and the header hash not above it) AND the approximate-SIS
verification passes; in `QUANTUM_NTRU` mode it returns exactly the heuristic
verifier's verdict, with no classical hash-target check composed. -/
theorem c3_dispatch_modes (hashFn : CBlockHeader → Nat)
    (sha256 : List Nat → List Nat)
    (checkQuantum : CBlockHeader → ConsensusParams → Bool)
    (block : CBlockHeader) (pSIS pNTRU : ConsensusParams)
    (hS : pSIS.powType = PowType.LATTICE_SIS)
    (hN : pNTRU.powType = PowType.QUANTUM_NTRU) :
    (CheckProofOfWork false hashFn sha256 checkQuantum block pSIS = true ↔
      (∃ t, DeriveTarget block.nBits pSIS.powLimit = some t ∧ hashFn block ≤ t) ∧
        CheckProofOfWorkSIS sha256 block pSIS = true) ∧
    CheckProofOfWork false hashFn sha256 checkQuantum block pNTRU =
      checkQuantum block pNTRU := by
  constructor
  · rw [CheckProofOfWork, if_neg (by simp), hS]
    cases hDT : DeriveTarget block.nBits pSIS.powLimit with
    | none =>
      simp [hDT]
    | some t =>
      cases hSIS : CheckProofOfWorkSIS sha256 block pSIS with
      | false => simp [hSIS]
      | true =>
        simp only [hSIS, Bool.not_true, Bool.false_eq_true, if_false]
        rw [CheckProofOfWorkImpl, hDT]
        simp
  · rw [CheckProofOfWork, if_neg (by simp), hN]
    cases hq : checkQuantum block pNTRU <;> simp [hq]

/-- Witness for C3 with concrete parameters, hash and heuristic verdict. -/
theorem c3_dispatch_modes_witness :
    ((CheckProofOfWork false (fun _ => 0) shaZero (fun _ _ => true) hdrEmptySol
        prmsTest = true ↔
      (∃ t, DeriveTarget hdrEmptySol.nBits prmsTest.powLimit = some t ∧
          (fun (_ : CBlockHeader) => (0 : Nat)) hdrEmptySol ≤ t) ∧
        CheckProofOfWorkSIS shaZero hdrEmptySol prmsTest = true) ∧
    CheckProofOfWork false (fun _ => 0) shaZero (fun _ _ => true) hdrEmptySol
        ⟨PowType.QUANTUM_NTRU, 2 ^ 255, 1, 8, 17, 1, 0, false⟩ =
      (fun (_ : CBlockHeader) (_ : ConsensusParams) => true) hdrEmptySol
        ⟨PowType.QUANTUM_NTRU, 2 ^ 255, 1, 8, 17, 1, 0, false⟩) :=
  c3_dispatch_modes (fun _ => 0) shaZero (fun _ _ => true) hdrEmptySol
    prmsTest ⟨PowType.QUANTUM_NTRU, 2 ^ 255, 1, 8, 17, 1, 0, false⟩ rfl rfl
